import Mathlib

/-!
Verification development for the CardForge front-end state subsystem:
the nested-path accessors, snapshot cloner, structural equality checker,
the bounded undo/redo history store, and the debounced dirty flag, as
implemented in the Alpine store module and the undo/redo component module.

JavaScript documents are modelled as finite trees: objects are association
lists of string keys, arrays are element lists together with an association
list of non-index expando properties (a plain JS array can carry extra
string-keyed own properties).  The exotic array `length` property and
prototype-chain lookups are outside the model; the source operates on plain
JSON data where they do not arise.
-/

set_option maxHeartbeats 1000000

/-- A JavaScript value as manipulated by the store module: `jundefined` is the
JS `undefined`, `jarr es ps` is an array with elements `es` and expando
(non-index) own properties `ps`, `jobj` a plain object. -/
inductive JVal where
  | jundefined : JVal
  | jnull : JVal
  | jbool : Bool → JVal
  | jnum : Int → JVal
  | jstr : String → JVal
  | jarr : List JVal → List (String × JVal) → JVal
  | jobj : List (String × JVal) → JVal

namespace JVal

/-- JS `current === null || current === undefined`. -/
def isNullish : JVal → Bool
  | jnull => true
  | jundefined => true
  | _ => false

/-- The value is an object in the JS sense that property assignment targets
without throwing in strict mode: an array or a plain object. -/
def isContainer : JVal → Bool
  | jarr _ _ => true
  | jobj _ => true
  | _ => false

/-- A non-null, non-undefined primitive: the condition of the source check
`current[key] !== undefined && current[key] !== null && typeof current[key] !== 'object'`. -/
def isPrim : JVal → Bool
  | jbool _ => true
  | jnum _ => true
  | jstr _ => true
  | _ => false

end JVal

/-- First-match lookup in an association list, `jundefined` when absent:
the JS property read `o[k]` on a plain object. -/
def getAssoc : List (String × JVal) → String → JVal
  | [], _ => .jundefined
  | (k', v') :: rest, k => if k' = k then v' else getAssoc rest k

/-- First-match update or append: the JS property write `o[k] = v` on a
plain object. -/
def setAssoc : List (String × JVal) → String → JVal → List (String × JVal)
  | [], k, v => [(k, v)]
  | (k', v') :: rest, k, v =>
      if k' = k then (k, v) :: rest else (k', v') :: setAssoc rest k v

theorem getAssoc_setAssoc_self (l : List (String × JVal)) (k : String) (v : JVal) :
    getAssoc (setAssoc l k v) k = v := by
  induction l with
  | nil => simp [getAssoc, setAssoc]
  | cons hd tl ih =>
      obtain ⟨k', v'⟩ := hd
      by_cases h : k' = k <;> simp [getAssoc, setAssoc, h, ih]

/-- Digit-string to number, for canonical array-index keys. -/
def digitsToNat (cs : List Char) : Nat :=
  cs.foldl (fun n c => n * 10 + (c.toNat - 48)) 0

/-- The regex test `/^\d+$/.test(key)` of the source: nonempty and all
decimal digits (leading zeros allowed). -/
def isNumericKey (s : String) : Bool :=
  !s.data.isEmpty && s.data.all (fun c => c.isDigit)

/-- A string key that denotes an actual array index in JS (canonical decimal
form, no leading zeros except the single digit 0). -/
def canonIdx (s : String) : Option Nat :=
  match s.data with
  | [] => none
  | c :: cs =>
      if (c :: cs).all (fun x => x.isDigit) && (c ≠ '0' || cs.isEmpty) then
        some (digitsToNat (c :: cs))
      else none

mutual
/-- The replacement step of the source path parsing: a left to right scan
replacing every occurrence of a bracketed nonempty digit run by a dot
followed by the digits and leaving everything else untouched (the regex
global replace of bracketed digit groups by dotted digit groups).
`bracketToDot` scans for an opening bracket; `bracketAcc acc` holds the
digits read since the last opening bracket and either completes the match
at a closing bracket or emits the consumed characters verbatim and resumes
the scan, exactly as the regex engine resumes at the next position. -/
def bracketToDot : List Char → List Char
  | [] => []
  | c :: rest =>
      if c = '[' then bracketAcc [] rest else c :: bracketToDot rest

def bracketAcc (acc : List Char) : List Char → List Char
  | [] => '[' :: acc.reverse
  | c :: rest =>
      if c.isDigit then bracketAcc (c :: acc) rest
      else if c = ']' then
        match acc with
        | [] => '[' :: ']' :: bracketToDot rest
        | _ :: _ => '.' :: acc.reverse ++ bracketToDot rest
      else
        ('[' :: acc.reverse) ++
          (if c = '[' then bracketAcc [] rest else c :: bracketToDot rest)
end

/-- Split a character list on the dot character, matching the semantics of
the JS string split with a one-character separator (the empty input yields
one empty group, a trailing separator yields a trailing empty group). -/
def splitDot : List Char → List (List Char)
  | [] => [[]]
  | c :: rest =>
      if c = '.' then [] :: splitDot rest
      else
        match splitDot rest with
        | g :: gs => (c :: g) :: gs
        | [] => [[c]]

/-- The key list of a path string, as computed by
`path.replace(bracketed digits to dotted digits).split(dot)` in the source. -/
def parsePath (p : String) : List String :=
  (splitDot (bracketToDot p.data)).map (fun cs => String.mk cs)

theorem splitDot_ne_nil (cs : List Char) : splitDot cs ≠ [] := by
  induction cs with
  | nil => simp [splitDot]
  | cons c rest ih =>
      simp only [splitDot]
      by_cases h : c = '.'
      · simp [h]
      · simp only [h, if_false]
        rcases hsp : splitDot rest with _ | ⟨g, gs⟩ <;> simp

theorem parsePath_ne_nil (p : String) : parsePath p ≠ [] := by
  unfold parsePath
  simp [splitDot_ne_nil]

/-- JS property read `current[key]` on a non-nullish receiver.  On an array
a canonical index key reads the element (out of range reads give
`jundefined`), any other key reads the expando properties; on an object it is
association-list lookup; on primitives the read yields `jundefined`
(auto-boxed primitives carry no own data properties in this model). -/
def jsRead : JVal → String → JVal
  | .jarr es ps, k =>
      match canonIdx k with
      | some i => es.getD i .jundefined
      | none => getAssoc ps k
  | .jobj fs, k => getAssoc fs k
  | _, _ => .jundefined

/-- JS property read including the TypeError raised when the receiver is
null or undefined. -/
def jsReadE (v : JVal) (k : String) : Except Unit JVal :=
  if v.isNullish then .error () else .ok (jsRead v k)

/-- JS property write `current[key] = v` on a container.  A canonical index
key on an array sets the element, extending the array with undefined
entries when the index is past the end, as JS assignment does; other keys
go to the expando properties. -/
def jsWrite : JVal → String → JVal → JVal
  | .jarr es ps, k, v =>
      match canonIdx k with
      | some i =>
          if i < es.length then .jarr (es.set i v) ps
          else .jarr (es ++ List.replicate (i - es.length) .jundefined ++ [v]) ps
      | none => .jarr es (setAssoc ps k v)
  | .jobj fs, k, v => .jobj (setAssoc fs k v)
  | w, _, _ => w

/-- JS property write including the TypeError that strict-mode code (the
source is an ES module) raises when assigning a property on a primitive,
null or undefined receiver. -/
def jsWriteE (c : JVal) (k : String) (v : JVal) : Except Unit JVal :=
  if c.isContainer then .ok (jsWrite c k v) else .error ()

/-- The traversal loop of `getByPath`: before every property access the
source checks the current value for null or undefined and returns
undefined at once; after the last segment it returns the current value. -/
def getKeys : JVal → List String → Except Unit JVal
  | cur, [] => .ok cur
  | cur, k :: rest =>
      if cur.isNullish then .ok .jundefined
      else
        match jsReadE cur k with
        | .error e => .error e
        | .ok nxt => getKeys nxt rest

/-- The function `getByPath(obj, path)` of the store module. -/
def getByPath (obj : JVal) (path : String) : Except Unit JVal :=
  getKeys obj (parsePath path)

/-- The fresh container auto-vivification creates: an array when the next
key matches the digits regex, an object otherwise. -/
def freshFor (nextKey : String) : JVal :=
  if isNumericKey nextKey then .jarr [] [] else .jobj []

/-- The loop of `setByPath` in state-passing form.  `ok none` is the early
`return` of the source when `autoCreate` is false (the document is left
untouched, only a console warning is emitted); `ok (some d)` is normal
completion with the updated document; `error` is a strict-mode TypeError.
The source mutates `current` in place and descends; here the recursion
returns the updated subtree and the caller writes it back, which agrees
because auto-vivified containers are fresh and the model has no sharing. -/
def setKeys : JVal → List String → JVal → Bool → Except Unit (Option JVal)
  | cur, [], _, _ => .ok (some cur)
  | cur, [k], v, _ =>
      match jsWriteE cur k v with
      | .error e => .error e
      | .ok res => .ok (some res)
  | cur, k :: nk :: rest, v, autoCreate =>
      match jsReadE cur k with
      | .error e => .error e
      | .ok cv =>
          if cv.isPrim then
            if !autoCreate then .ok none
            else
              match jsWriteE cur k (freshFor nk) with
              | .error e => .error e
              | .ok cur1 =>
                  match setKeys (freshFor nk) (nk :: rest) v autoCreate with
                  | .error e => .error e
                  | .ok none => .ok none
                  | .ok (some sub) =>
                      match jsWriteE cur1 k sub with
                      | .error e => .error e
                      | .ok res => .ok (some res)
          else if cv.isNullish then
            if !autoCreate then .ok none
            else
              match jsWriteE cur k (freshFor nk) with
              | .error e => .error e
              | .ok cur1 =>
                  match setKeys (freshFor nk) (nk :: rest) v autoCreate with
                  | .error e => .error e
                  | .ok none => .ok none
                  | .ok (some sub) =>
                      match jsWriteE cur1 k sub with
                      | .error e => .error e
                      | .ok res => .ok (some res)
          else
            match setKeys cv (nk :: rest) v autoCreate with
            | .error e => .error e
            | .ok none => .ok none
            | .ok (some sub) =>
                match jsWriteE cur k sub with
                | .error e => .error e
                | .ok res => .ok (some res)

/-- The function `setByPath(obj, path, value, autoCreate)` of the store
module, returning
the updated document (the source updates it in place). -/
def setByPath (obj : JVal) (path : String) (value : JVal) (autoCreate : Bool) :
    Except Unit JVal :=
  match setKeys obj (parsePath path) value autoCreate with
  | .error e => .error e
  | .ok none => .ok obj
  | .ok (some res) => .ok res

/-- The intermediate segments of the key list all resolve to containers;
when this fails the `setByPath` loop with `autoCreate` disabled aborts
before touching the document. -/
def chainOk : JVal → List String → Bool
  | _, [] => true
  | _, [_] => true
  | cur, k :: nk :: rest =>
      (jsRead cur k).isContainer && chainOk (jsRead cur k) (nk :: rest)

mutual
/-- The hand-written fallback branch of `deepClone`: primitives are
returned as they are, arrays are cloned with `map` over the elements
(which drops expando properties, as the source does), objects copy their
own enumerable key/value pairs.  On plain JSON data this coincides with
the preferred native structured clone. -/
def deepClone : JVal → JVal
  | .jundefined => .jundefined
  | .jnull => .jnull
  | .jbool b => .jbool b
  | .jnum n => .jnum n
  | .jstr s => .jstr s
  | .jarr es _ => .jarr (deepCloneList es) []
  | .jobj fs => .jobj (deepCloneFields fs)

def deepCloneList : List JVal → List JVal
  | [] => []
  | e :: es => deepClone e :: deepCloneList es

def deepCloneFields : List (String × JVal) → List (String × JVal)
  | [] => []
  | (k, v) :: fs => (k, deepClone v) :: deepCloneFields fs
end

mutual
/-- No array in the tree carries expando properties; every plain JSON
document satisfies this. -/
def noProps : JVal → Bool
  | .jarr es ps => ps.isEmpty && noPropsList es
  | .jobj fs => noPropsFields fs
  | _ => true

def noPropsList : List JVal → Bool
  | [] => true
  | e :: es => noProps e && noPropsList es

def noPropsFields : List (String × JVal) → Bool
  | [] => true
  | (_, v) :: fs => noProps v && noPropsFields fs
end

mutual
theorem deepClone_eq_self : ∀ (v : JVal), noProps v = true → deepClone v = v
  | .jundefined, _ => rfl
  | .jnull, _ => rfl
  | .jbool _, _ => rfl
  | .jnum _, _ => rfl
  | .jstr _, _ => rfl
  | .jarr es ps, h => by
      simp only [noProps, Bool.and_eq_true, List.isEmpty_iff] at h
      simp [deepClone, deepCloneList_eq_self es h.2, h.1]
  | .jobj fs, h => by
      simp only [noProps] at h
      simp [deepClone, deepCloneFields_eq_self fs h]

theorem deepCloneList_eq_self :
    ∀ (es : List JVal), noPropsList es = true → deepCloneList es = es
  | [], _ => rfl
  | e :: es, h => by
      simp only [noPropsList, Bool.and_eq_true] at h
      simp [deepCloneList, deepClone_eq_self e h.1, deepCloneList_eq_self es h.2]

theorem deepCloneFields_eq_self :
    ∀ (fs : List (String × JVal)), noPropsFields fs = true → deepCloneFields fs = fs
  | [], _ => rfl
  | (k, v) :: fs, h => by
      simp only [noPropsFields, Bool.and_eq_true] at h
      simp [deepCloneFields, deepClone_eq_self v h.1, deepCloneFields_eq_self fs h.2]
end

/-- The JS strict equality `a === b` as observable on tree values:
value equality on primitives; on two containers reference equality is
under-approximated by `false`, which leaves `deepEqual` unchanged because
the source then compares the containers structurally anyway. -/
def primEq : JVal → JVal → Bool
  | .jundefined, .jundefined => true
  | .jnull, .jnull => true
  | .jbool a, .jbool b => a == b
  | .jnum a, .jnum b => a == b
  | .jstr a, .jstr b => a == b
  | _, _ => false

theorem sizeOf_getAssoc_lt (l : List (String × JVal)) (k : String) :
    sizeOf (getAssoc l k) < 1 + sizeOf l := by
  induction l with
  | nil => simp [getAssoc]
  | cons hd tl ih =>
      obtain ⟨k', v'⟩ := hd
      by_cases h : k' = k
      · simp only [getAssoc, h, if_true]
        simp
        omega
      · simp only [getAssoc, h, if_false]
        simp only [List.cons.sizeOf_spec, Prod.mk.sizeOf_spec]
        omega

/-- The function `deepEqual(a, b)` of the store module: strict-equality
shortcut, null
check, non-object check, array kind check, then key-set comparison with
recursion per key (order-independent for objects, order- and
length-sensitive for arrays).  Array expando properties are compared like
object fields; plain JSON arrays have none. -/
def deepEqual (a b : JVal) : Bool :=
  if primEq a b then true
  else
    match a, b with
    | .jnull, _ => false
    | _, .jnull => false
    | .jarr es ps, .jarr es' ps' =>
        es.length == es'.length && ps.length == ps'.length &&
        (List.zip es es').attach.all (fun z => deepEqual z.1.1 z.1.2) &&
        ps.attach.all (fun w =>
          (ps'.map Prod.fst).contains w.1.1 &&
          deepEqual (getAssoc ps w.1.1) (getAssoc ps' w.1.1))
    | .jobj fs, .jobj fs' =>
        fs.length == fs'.length &&
        fs.attach.all (fun w =>
          (fs'.map Prod.fst).contains w.1.1 &&
          deepEqual (getAssoc fs w.1.1) (getAssoc fs' w.1.1))
    | _, _ => false
termination_by sizeOf a
decreasing_by
  · obtain ⟨⟨x, y⟩, hz⟩ := z
    have hm := List.of_mem_zip hz
    have := List.sizeOf_lt_of_mem hm.1
    simp only [JVal.jarr.sizeOf_spec]
    simp only at *
    omega
  · have := sizeOf_getAssoc_lt ps w.1.1
    simp only [JVal.jarr.sizeOf_spec]
    omega
  · have := sizeOf_getAssoc_lt fs w.1.1
    simp only [JVal.jobj.sizeOf_spec]
    omega

theorem mem_zip_same {l : List JVal} : ∀ z ∈ List.zip l l, z.1 = z.2 := by
  induction l with
  | nil => simp
  | cons a l ih =>
      intro z hz
      rw [List.zip_cons_cons, List.mem_cons] at hz
      rcases hz with h | h
      · subst h; rfl
      · exact ih z h

theorem deepEqual_refl : ∀ (a : JVal), deepEqual a a = true
  | .jundefined => by simp [deepEqual, primEq]
  | .jnull => by simp [deepEqual, primEq]
  | .jbool b => by simp [deepEqual, primEq]
  | .jnum n => by simp [deepEqual, primEq]
  | .jstr s => by simp [deepEqual, primEq]
  | .jarr es ps => by
      rw [deepEqual]
      simp only [primEq, Bool.false_eq_true, if_false, beq_self_eq_true,
        Bool.and_eq_true, List.all_eq_true, true_and]
      refine ⟨fun z hz => ?_, fun w hw => ?_⟩
      · obtain ⟨⟨x, y⟩, hmem⟩ := z
        have hxy := mem_zip_same _ hmem
        simp only at hxy ⊢
        subst hxy
        exact deepEqual_refl x
      · obtain ⟨⟨k, v⟩, hmem⟩ := w
        simp only [Bool.and_eq_true]
        constructor
        · exact List.elem_eq_true_of_mem (List.mem_map_of_mem Prod.fst hmem)
        · exact deepEqual_refl (getAssoc ps k)
  | .jobj fs => by
      rw [deepEqual]
      simp only [primEq, Bool.false_eq_true, if_false, beq_self_eq_true,
        Bool.and_eq_true, List.all_eq_true, true_and]
      intro w hw
      obtain ⟨⟨k, v⟩, hmem⟩ := w
      simp only [Bool.and_eq_true]
      constructor
      · exact List.elem_eq_true_of_mem (List.mem_map_of_mem Prod.fst hmem)
      · exact deepEqual_refl (getAssoc fs k)
termination_by a => sizeOf a
decreasing_by
  · have := List.sizeOf_lt_of_mem (List.of_mem_zip hmem).1
    simp only [JVal.jarr.sizeOf_spec]
    omega
  · have := sizeOf_getAssoc_lt ps k
    simp only [JVal.jarr.sizeOf_spec]
    omega
  · have := sizeOf_getAssoc_lt fs k
    simp only [JVal.jobj.sizeOf_spec]
    omega

theorem isNullish_of_isContainer {c : JVal} (h : c.isContainer = true) :
    c.isNullish = false := by
  cases c <;> simp_all [JVal.isContainer, JVal.isNullish]

theorem isContainer_of_not_prim_not_nullish {c : JVal}
    (h1 : c.isPrim = false) (h2 : c.isNullish = false) : c.isContainer = true := by
  cases c <;> simp_all [JVal.isContainer, JVal.isNullish, JVal.isPrim]

theorem jsReadE_container {c : JVal} (h : c.isContainer = true) (k : String) :
    jsReadE c k = .ok (jsRead c k) := by
  simp [jsReadE, isNullish_of_isContainer h]

theorem jsWriteE_container {c : JVal} (h : c.isContainer = true) (k : String) (v : JVal) :
    jsWriteE c k v = .ok (jsWrite c k v) := by
  simp [jsWriteE, h]

theorem jsWrite_isContainer {c : JVal} (h : c.isContainer = true) (k : String) (v : JVal) :
    (jsWrite c k v).isContainer = true := by
  cases c with
  | jarr es ps =>
      simp only [jsWrite]
      rcases canonIdx k with _ | i
      · simp [JVal.isContainer]
      · by_cases hi : i < es.length <;> simp [hi, JVal.isContainer]
  | jobj fs => simp [jsWrite, JVal.isContainer]
  | jundefined => simp [JVal.isContainer] at h
  | jnull => simp [JVal.isContainer] at h
  | jbool b => simp [JVal.isContainer] at h
  | jnum n => simp [JVal.isContainer] at h
  | jstr s => simp [JVal.isContainer] at h

/-- Reading back the key just written returns the written value, on any
container receiver. -/
theorem jsRead_jsWrite_self {c : JVal} (h : c.isContainer = true) (k : String) (v : JVal) :
    jsRead (jsWrite c k v) k = v := by
  cases c with
  | jarr es ps =>
      simp only [jsWrite]
      rcases hci : canonIdx k with _ | i
      · simp [jsRead, hci, getAssoc_setAssoc_self]
      · by_cases hi : i < es.length
        · simp only [hi, if_true, jsRead, hci]
          rw [List.getD_eq_getElem?_getD]
          rw [List.getElem?_set_self (by simpa using hi)]
          rfl
        · simp only [hi, if_false, jsRead, hci]
          rw [List.getD_eq_getElem?_getD]
          rw [List.getElem?_append_right
            (by simp only [List.length_append, List.length_replicate]; omega)]
          rw [show i - (es ++ List.replicate (i - es.length) JVal.jundefined).length = 0 from by
            simp only [List.length_append, List.length_replicate]; omega]
          rfl
  | jobj fs => simp [jsRead, jsWrite, getAssoc_setAssoc_self]
  | jundefined => simp [JVal.isContainer] at h
  | jnull => simp [JVal.isContainer] at h
  | jbool b => simp [JVal.isContainer] at h
  | jnum n => simp [JVal.isContainer] at h
  | jstr s => simp [JVal.isContainer] at h

theorem freshFor_isContainer (nk : String) : (freshFor nk).isContainer = true := by
  unfold freshFor
  by_cases h : isNumericKey nk = true <;> simp [h, JVal.isContainer]

theorem getKeys_nil (cur : JVal) : getKeys cur [] = .ok cur := rfl

theorem getKeys_cons_container {cur : JVal} (h : cur.isContainer = true)
    (k : String) (rest : List String) :
    getKeys cur (k :: rest) = getKeys (jsRead cur k) rest := by
  simp [getKeys, isNullish_of_isContainer h, jsReadE_container h]

theorem setKeys_getKeys_roundtrip :
    ∀ (keys : List String) (cur v : JVal), keys ≠ [] → cur.isContainer = true →
    ∃ cur', setKeys cur keys v true = .ok (some cur') ∧
            cur'.isContainer = true ∧ getKeys cur' keys = .ok v
  | [], _, _, hne, _ => absurd rfl hne
  | [k], cur, v, _, hc => by
      refine ⟨jsWrite cur k v, ?_, jsWrite_isContainer hc k v, ?_⟩
      · simp [setKeys, jsWriteE_container hc]
      · rw [getKeys_cons_container (jsWrite_isContainer hc k v),
            jsRead_jsWrite_self hc, getKeys_nil]
  | k :: nk :: rest, cur, v, _, hc => by
      have hread := jsReadE_container hc k
      by_cases hp : (jsRead cur k).isPrim = true
      · obtain ⟨sub, hset, hsubc, hget⟩ :=
          setKeys_getKeys_roundtrip (nk :: rest) (freshFor nk) v (by simp)
            (freshFor_isContainer nk)
        have hc1 := jsWrite_isContainer hc k (freshFor nk)
        refine ⟨jsWrite (jsWrite cur k (freshFor nk)) k sub, ?_, ?_, ?_⟩
        · simp [setKeys, hread, hp, jsWriteE_container hc, hset,
                jsWriteE_container hc1]
        · exact jsWrite_isContainer hc1 k sub
        · rw [getKeys_cons_container (jsWrite_isContainer hc1 k sub),
              jsRead_jsWrite_self hc1, hget]
      · by_cases hn : (jsRead cur k).isNullish = true
        · obtain ⟨sub, hset, hsubc, hget⟩ :=
            setKeys_getKeys_roundtrip (nk :: rest) (freshFor nk) v (by simp)
              (freshFor_isContainer nk)
          have hc1 := jsWrite_isContainer hc k (freshFor nk)
          refine ⟨jsWrite (jsWrite cur k (freshFor nk)) k sub, ?_, ?_, ?_⟩
          · simp [setKeys, hread, hp, hn, jsWriteE_container hc, hset,
                  jsWriteE_container hc1]
          · exact jsWrite_isContainer hc1 k sub
          · rw [getKeys_cons_container (jsWrite_isContainer hc1 k sub),
                jsRead_jsWrite_self hc1, hget]
        · have hcc : (jsRead cur k).isContainer = true :=
            isContainer_of_not_prim_not_nullish (by simpa using hp) (by simpa using hn)
          obtain ⟨sub, hset, hsubc, hget⟩ :=
            setKeys_getKeys_roundtrip (nk :: rest) (jsRead cur k) v (by simp) hcc
          refine ⟨jsWrite cur k sub, ?_, jsWrite_isContainer hc k sub, ?_⟩
          · simp [setKeys, hread, hp, hn, hset, jsWriteE_container hc]
          · rw [getKeys_cons_container (jsWrite_isContainer hc k sub),
                jsRead_jsWrite_self hc, hget]
termination_by keys => keys.length

/-- With auto-creation disabled, a broken intermediate chain makes the set
loop return early without writing anything. -/
theorem setKeys_abort_of_chain_broken :
    ∀ (keys : List String) (cur v : JVal), cur.isContainer = true →
    chainOk cur keys = false → setKeys cur keys v false = .ok none
  | [], _, _, _, hch => by simp [chainOk] at hch
  | [_], _, _, _, hch => by simp [chainOk] at hch
  | k :: nk :: rest, cur, v, hc, hch => by
      have hread := jsReadE_container hc k
      by_cases hp : (jsRead cur k).isPrim = true
      · simp [setKeys, hread, hp]
      · by_cases hn : (jsRead cur k).isNullish = true
        · simp [setKeys, hread, hp, hn]
        · have hcc : (jsRead cur k).isContainer = true :=
            isContainer_of_not_prim_not_nullish (by simpa using hp) (by simpa using hn)
          have hch2 : chainOk (jsRead cur k) (nk :: rest) = false := by
            simp only [chainOk, hcc, Bool.true_and] at hch
            exact hch
          have hrec := setKeys_abort_of_chain_broken (nk :: rest) (jsRead cur k) v hcc hch2
          simp [setKeys, hread, hp, hn, hrec]
termination_by keys => keys.length

/-- State of the undo/redo history store: a single stack of snapshots with
a pointer, as declared in the store module. -/
structure HistoryState where
  stack : List JVal
  index : Int
  maxSize : Nat

namespace History

/-- The state the store is declared with: empty stack, pointer -1,
maxSize 10. -/
def initial : HistoryState := ⟨[], -1, 10⟩

/-- The canUndo getter of the store. -/
def canUndo (s : HistoryState) : Bool := decide (0 < s.index)

/-- The canRedo getter of the store. -/
def canRedo (s : HistoryState) : Bool :=
  decide (s.index < (s.stack.length : Int) - 1)

/-- JS array read `stack[i]` at a possibly out-of-range position:
undefined outside the bounds. -/
def stackGet (l : List JVal) (i : Int) : JVal :=
  if i < 0 then .jundefined else l.getD i.toNat .jundefined

/-- push(state): truncate the redo branch when the pointer is not at the
top (`slice(0, index + 1)`, modelled for pointers at or above -1, the only
reachable ones), append a deep clone, point at the top, then evict the
oldest entry (`shift()`) and decrement the pointer when the stack exceeds
maxSize. -/
def push (s : HistoryState) (state : JVal) : HistoryState :=
  let stack0 := if s.index < (s.stack.length : Int) - 1
                then s.stack.take (s.index + 1).toNat
                else s.stack
  let stack1 := stack0 ++ [deepClone state]
  if stack1.length > s.maxSize then
    { stack := stack1.tail, index := (stack1.length : Int) - 1 - 1,
      maxSize := s.maxSize }
  else
    { stack := stack1, index := (stack1.length : Int) - 1, maxSize := s.maxSize }

/-- undo(): null and no state change when canUndo fails, otherwise
decrement the pointer and return a deep clone of the entry now pointed at. -/
def undo (s : HistoryState) : Option JVal × HistoryState :=
  if !canUndo s then (none, s)
  else (some (deepClone (stackGet s.stack (s.index - 1))),
        { s with index := s.index - 1 })

/-- redo(): null and no state change when canRedo fails, otherwise
increment the pointer and return a deep clone of the entry now pointed at. -/
def redo (s : HistoryState) : Option JVal × HistoryState :=
  if !canRedo s then (none, s)
  else (some (deepClone (stackGet s.stack (s.index + 1))),
        { s with index := s.index + 1 })

/-- clear(): empty stack, pointer -1. -/
def clear (s : HistoryState) : HistoryState :=
  { stack := [], index := -1, maxSize := s.maxSize }

/-- init(initialState): clear then push. -/
def init (s : HistoryState) (state : JVal) : HistoryState :=
  push (clear s) state

end History

/-- An operation on the history store. -/
inductive HOp where
  | push (v : JVal)
  | undo
  | redo
  | clear
  | init (v : JVal)

namespace History

/-- The state transition of one operation. -/
def applyOp (s : HistoryState) : HOp → HistoryState
  | .push v => push s v
  | .undo => (undo s).2
  | .redo => (redo s).2
  | .clear => clear s
  | .init v => init s v

/-- Run a sequence of operations from the declared initial state. -/
def run (ops : List HOp) : HistoryState := ops.foldl applyOp initial

/-- One step of the run that also records the value returned by undo or
redo. -/
def stepOut (acc : HistoryState × List (Option JVal)) (op : HOp) :
    HistoryState × List (Option JVal) :=
  match op with
  | .undo => ((undo acc.1).2, acc.2 ++ [(undo acc.1).1])
  | .redo => ((redo acc.1).2, acc.2 ++ [(redo acc.1).1])
  | _ => (applyOp acc.1 op, acc.2)

/-- Run from the declared initial state, collecting the undo and redo
return values. -/
def runOut (ops : List HOp) : HistoryState × List (Option JVal) :=
  ops.foldl stepOut (initial, [])

end History

namespace History

/-- The stack after the truncation step of push: when the pointer is not at
the top, the entries after it are discarded (`slice(0, index + 1)`). -/
def pushTrunc (s : HistoryState) : List JVal :=
  if s.index < (s.stack.length : Int) - 1
  then s.stack.take (s.index + 1).toNat
  else s.stack

theorem push_eq (s : HistoryState) (v : JVal) :
    push s v =
      if (pushTrunc s ++ [deepClone v]).length > s.maxSize then
        { stack := (pushTrunc s ++ [deepClone v]).tail,
          index := ((pushTrunc s ++ [deepClone v]).length : Int) - 1 - 1,
          maxSize := s.maxSize }
      else
        { stack := pushTrunc s ++ [deepClone v],
          index := ((pushTrunc s ++ [deepClone v]).length : Int) - 1,
          maxSize := s.maxSize } := by
  unfold push pushTrunc
  rfl

/-- The state invariant claimed for the history store. -/
def Inv (s : HistoryState) : Prop :=
  -1 ≤ s.index ∧ s.index < (s.stack.length : Int) ∧
  (s.index = -1 ↔ s.stack.length = 0) ∧ s.stack.length ≤ s.maxSize

theorem pushTrunc_length {s : HistoryState} (h1 : -1 ≤ s.index)
    (h2 : s.index < (s.stack.length : Int)) :
    (pushTrunc s).length = (s.index + 1).toNat := by
  unfold pushTrunc
  split_ifs with hc
  · rw [List.length_take]
    omega
  · omega

theorem push_inv {s : HistoryState} (h : Inv s) (v : JVal) : Inv (push s v) := by
  obtain ⟨h1, h2, h3, h4⟩ := h
  have hl := pushTrunc_length h1 h2
  rw [push_eq]
  split_ifs with he
  · unfold Inv
    simp only [List.length_tail, List.length_append, List.length_cons,
      List.length_nil, hl] at he ⊢
    omega
  · unfold Inv
    simp only [List.length_append, List.length_cons, List.length_nil, hl] at he ⊢
    omega

theorem undo_inv {s : HistoryState} (h : Inv s) : Inv ((undo s).2) := by
  obtain ⟨h1, h2, h3, h4⟩ := h
  unfold undo
  cases hcu : canUndo s
  · simp only [hcu, Bool.not_false, if_true]
    exact ⟨h1, h2, h3, h4⟩
  · have hgt : 0 < s.index := by simpa [canUndo] using hcu
    simp only [hcu, Bool.not_true, Bool.false_eq_true, if_false]
    unfold Inv
    simp only []
    omega

theorem redo_inv {s : HistoryState} (h : Inv s) : Inv ((redo s).2) := by
  obtain ⟨h1, h2, h3, h4⟩ := h
  unfold redo
  cases hcr : canRedo s
  · simp only [hcr, Bool.not_false, if_true]
    exact ⟨h1, h2, h3, h4⟩
  · have hlt : s.index < (s.stack.length : Int) - 1 := by
      simpa [canRedo] using hcr
    simp only [hcr, Bool.not_true, Bool.false_eq_true, if_false]
    unfold Inv
    simp only []
    omega

theorem clear_inv (s : HistoryState) : Inv (clear s) := by
  unfold clear Inv
  simp

theorem init_inv (s : HistoryState) (v : JVal) : Inv (init s v) :=
  push_inv (clear_inv s) v

theorem applyOp_inv {s : HistoryState} (h : Inv s) (op : HOp) :
    Inv (applyOp s op) := by
  cases op with
  | push v => exact push_inv h v
  | undo => exact undo_inv h
  | redo => exact redo_inv h
  | clear => exact clear_inv s
  | init v => exact init_inv s v

theorem initial_inv : Inv initial := by
  unfold initial Inv
  simp

theorem foldl_applyOp_inv {s : HistoryState} (h : Inv s) (ops : List HOp) :
    Inv (ops.foldl applyOp s) := by
  induction ops generalizing s with
  | nil => exact h
  | cons op ops ih => exact ih (applyOp_inv h op)

theorem run_inv (ops : List HOp) : Inv (run ops) :=
  foldl_applyOp_inv initial_inv ops

end History

theorem tail_append_cons (S X : List JVal) (a : JVal) :
    ((S ++ [a]).tail) ++ X = (S ++ a :: X).tail := by
  cases S <;> simp

/-- Shape of a run of consecutive pushes from a stack whose pointer is at
the top: the clones are appended and only the most recent maxSize entries
survive. -/
theorem foldl_push_shape (m : Nat) :
    ∀ (vs S : List JVal), S.length ≤ m →
      vs.foldl History.push
        { stack := S, index := (S.length : Int) - 1, maxSize := m } =
      { stack := (S ++ vs.map deepClone).drop (S.length + vs.length - m),
        index :=
          (((S ++ vs.map deepClone).drop (S.length + vs.length - m)).length : Int)
            - 1,
        maxSize := m }
  | [], S, hS => by
      simp [Nat.sub_eq_zero_of_le hS]
  | v :: vs, S, hS => by
      rw [List.foldl_cons]
      have htr : History.pushTrunc
          { stack := S, index := (S.length : Int) - 1, maxSize := m } = S := by
        unfold History.pushTrunc
        simp
      rw [History.push_eq, htr]
      by_cases hm : (S ++ [deepClone v]).length >
          ({ stack := S, index := (S.length : Int) - 1, maxSize := m } :
            HistoryState).maxSize
      · have hSm : S.length = m := by
          simp only [List.length_append, List.length_cons, List.length_nil] at hm
          omega
        simp only [hm, if_true]
        have hlt : ((S ++ [deepClone v]).tail).length = m := by
          simp [hSm]
        have hidx : ((S ++ [deepClone v]).length : Int) - 1 - 1 =
            (((S ++ [deepClone v]).tail).length : Int) - 1 := by
          simp
        rw [hidx]
        rw [show (((S ++ [deepClone v]).tail).length : Int) - 1 =
              ((((S ++ [deepClone v]).tail).length : Int) - 1) from rfl]
        have := foldl_push_shape m vs ((S ++ [deepClone v]).tail) (by omega)
        rw [this]
        have hstk : ((S ++ [deepClone v]).tail ++ vs.map deepClone).drop
              (((S ++ [deepClone v]).tail).length + vs.length - m) =
            (S ++ (v :: vs).map deepClone).drop
              (S.length + (v :: vs).length - m) := by
          rw [tail_append_cons]
          rw [show (S ++ deepClone v :: vs.map deepClone).tail =
                (S ++ deepClone v :: vs.map deepClone).drop 1 from
            (List.drop_one _).symm]
          rw [List.drop_drop]
          simp only [List.map_cons, List.length_cons]
          congr 1
          omega
        rw [hstk]
      · have hSm : S.length + 1 ≤ m := by
          simp only [List.length_append, List.length_cons, List.length_nil] at hm
          omega
        simp only [hm, if_false]
        have hidx : ((S ++ [deepClone v]).length : Int) - 1 =
            (((S ++ [deepClone v]).length : Int)) - 1 := rfl
        have hlen : (S ++ [deepClone v]).length = S.length + 1 := by simp
        have := foldl_push_shape m vs (S ++ [deepClone v]) (by omega)
        rw [show (((S ++ [deepClone v]).length : Int) - 1) =
              (((S ++ [deepClone v]).length : Int) - 1) from rfl]
        rw [hlen] at this ⊢
        rw [this]
        have hstk : ((S ++ [deepClone v]) ++ vs.map deepClone).drop
              (S.length + 1 + vs.length - m) =
            (S ++ (v :: vs).map deepClone).drop
              (S.length + (v :: vs).length - m) := by
          simp only [List.map_cons, List.length_cons, List.append_assoc,
            List.cons_append, List.nil_append]
          congr 1
          omega
        rw [hstk]

/-!
The undo/redo component module defines its own history store
(`initHistoryStore`), textually separate from the one in the global store
module but registered under the same name; it imports `deepClone` from the
store module.  It is embedded separately below, mirroring its own source.
-/

namespace HistoryUR

/-- The state the component module store is declared with. -/
def initial : HistoryState := ⟨[], -1, 10⟩

/-- canUndo getter of the component module store. -/
def canUndo (s : HistoryState) : Bool := decide (0 < s.index)

/-- canRedo getter of the component module store. -/
def canRedo (s : HistoryState) : Bool :=
  decide (s.index < (s.stack.length : Int) - 1)

/-- JS array read at a possibly out-of-range position. -/
def stackGet (l : List JVal) (i : Int) : JVal :=
  if i < 0 then .jundefined else l.getD i.toNat .jundefined

/-- push(state) of the component module store. -/
def push (s : HistoryState) (state : JVal) : HistoryState :=
  let stack0 := if s.index < (s.stack.length : Int) - 1
                then s.stack.take (s.index + 1).toNat
                else s.stack
  let stack1 := stack0 ++ [deepClone state]
  if stack1.length > s.maxSize then
    { stack := stack1.tail, index := (stack1.length : Int) - 1 - 1,
      maxSize := s.maxSize }
  else
    { stack := stack1, index := (stack1.length : Int) - 1, maxSize := s.maxSize }

/-- undo() of the component module store. -/
def undo (s : HistoryState) : Option JVal × HistoryState :=
  if !canUndo s then (none, s)
  else (some (deepClone (stackGet s.stack (s.index - 1))),
        { s with index := s.index - 1 })

/-- redo() of the component module store. -/
def redo (s : HistoryState) : Option JVal × HistoryState :=
  if !canRedo s then (none, s)
  else (some (deepClone (stackGet s.stack (s.index + 1))),
        { s with index := s.index + 1 })

/-- clear() of the component module store. -/
def clear (s : HistoryState) : HistoryState :=
  { stack := [], index := -1, maxSize := s.maxSize }

/-- init(initialState) of the component module store. -/
def init (s : HistoryState) (state : JVal) : HistoryState :=
  push (clear s) state

/-- The state transition of one operation. -/
def applyOp (s : HistoryState) : HOp → HistoryState
  | .push v => push s v
  | .undo => (undo s).2
  | .redo => (redo s).2
  | .clear => clear s
  | .init v => init s v

/-- One step of the run that also records the value returned by undo or
redo. -/
def stepOut (acc : HistoryState × List (Option JVal)) (op : HOp) :
    HistoryState × List (Option JVal) :=
  match op with
  | .undo => ((undo acc.1).2, acc.2 ++ [(undo acc.1).1])
  | .redo => ((redo acc.1).2, acc.2 ++ [(redo acc.1).1])
  | _ => (applyOp acc.1 op, acc.2)

/-- Run from the declared initial state, collecting the undo and redo
return values. -/
def runOut (ops : List HOp) : HistoryState × List (Option JVal) :=
  ops.foldl stepOut (initial, [])

end HistoryUR

theorem historyUR_runOut_eq_history_runOut :
    HistoryUR.runOut = History.runOut := rfl

/-- A JSON document tree in which every object and array node carries the
heap address of the underlying JS object, making sharing of mutable
substructure observable: two values share mutable substructure exactly
when a container address occurs in both.  Primitives are immutable and
carry no address. -/
inductive AVal where
  | aundefined : AVal
  | anull : AVal
  | abool : Bool → AVal
  | anum : Int → AVal
  | astr : String → AVal
  | aarr : Nat → List AVal → AVal
  | aobj : Nat → List (String × AVal) → AVal

mutual
/-- The addresses of all container nodes of a tree. -/
def addrs : AVal → List Nat
  | .aarr a es => a :: addrsList es
  | .aobj a fs => a :: addrsFields fs
  | _ => []

def addrsList : List AVal → List Nat
  | [] => []
  | e :: es => addrs e ++ addrsList es

def addrsFields : List (String × AVal) → List Nat
  | [] => []
  | (_, v) :: fs => addrs v ++ addrsFields fs
end

mutual
/-- The fallback `deepClone` on addressed trees, threading an allocation
counter: primitives are returned as they are; every container is rebuilt
as a freshly allocated node whose children are cloned recursively
(`map` for arrays, a key-by-key copy for objects).  JS allocation always
yields an address not in use, which the counter models. -/
def cloneA : AVal → Nat → AVal × Nat
  | .aundefined, n => (.aundefined, n)
  | .anull, n => (.anull, n)
  | .abool b, n => (.abool b, n)
  | .anum x, n => (.anum x, n)
  | .astr s, n => (.astr s, n)
  | .aarr _ es, n =>
      let r := cloneListA es (n + 1)
      (.aarr n r.1, r.2)
  | .aobj _ fs, n =>
      let r := cloneFieldsA fs (n + 1)
      (.aobj n r.1, r.2)

def cloneListA : List AVal → Nat → List AVal × Nat
  | [], n => ([], n)
  | e :: es, n =>
      let r := cloneA e n
      let rs := cloneListA es r.2
      (r.1 :: rs.1, rs.2)

def cloneFieldsA : List (String × AVal) → Nat → List (String × AVal) × Nat
  | [], n => ([], n)
  | (k, v) :: fs, n =>
      let r := cloneA v n
      let rs := cloneFieldsA fs r.2
      ((k, r.1) :: rs.1, rs.2)
end

mutual
/-- Erase the addresses, recovering the plain document. -/
def strip : AVal → JVal
  | .aundefined => .jundefined
  | .anull => .jnull
  | .abool b => .jbool b
  | .anum x => .jnum x
  | .astr s => .jstr s
  | .aarr _ es => .jarr (stripList es) []
  | .aobj _ fs => .jobj (stripFields fs)

def stripList : List AVal → List JVal
  | [] => []
  | e :: es => strip e :: stripList es

def stripFields : List (String × AVal) → List (String × JVal)
  | [] => []
  | (k, v) :: fs => (k, strip v) :: stripFields fs
end

/-- First-match update or append on addressed fields. -/
def setAssocA : List (String × AVal) → String → AVal → List (String × AVal)
  | [], k, v => [(k, v)]
  | (k', v') :: rest, k, v =>
      if k' = k then (k, v) :: rest else (k', v') :: setAssocA rest k v

/-- One JS property write applied to a single node. -/
def mutateNode : AVal → String → AVal → AVal
  | .aarr a es, k, w =>
      match canonIdx k with
      | some i =>
          if i < es.length then .aarr a (es.set i w)
          else .aarr a (es ++ List.replicate (i - es.length) .aundefined ++ [w])
      | none => .aarr a es
  | .aobj a fs, k, w => .aobj a (setAssocA fs k w)
  | v, _, _ => v

mutual
/-- A heap mutation: the JS property write `o[k] = w` performed on the
object or array allocated at address t.  Every tree holding that address
sees the change; a tree not containing the address is unaffected. -/
def mutateAt : AVal → Nat → String → AVal → AVal
  | .aarr a es, t, k, w =>
      if a = t then mutateNode (.aarr a (mutateListAt es t k w)) k w
      else .aarr a (mutateListAt es t k w)
  | .aobj a fs, t, k, w =>
      if a = t then mutateNode (.aobj a (mutateFieldsAt fs t k w)) k w
      else .aobj a (mutateFieldsAt fs t k w)
  | v, _, _, _ => v

def mutateListAt : List AVal → Nat → String → AVal → List AVal
  | [], _, _, _ => []
  | e :: es, t, k, w => mutateAt e t k w :: mutateListAt es t k w

def mutateFieldsAt : List (String × AVal) → Nat → String → AVal → List (String × AVal)
  | [], _, _, _ => []
  | (k', v) :: fs, t, k, w => (k', mutateAt v t k w) :: mutateFieldsAt fs t k w
end

mutual
theorem cloneA_counter_le : ∀ (v : AVal) (n : Nat), n ≤ (cloneA v n).2
  | .aundefined, n => le_refl n
  | .anull, n => le_refl n
  | .abool _, n => le_refl n
  | .anum _, n => le_refl n
  | .astr _, n => le_refl n
  | .aarr _ es, n => by
      have h := cloneListA_counter_le es (n + 1)
      simp only [cloneA]
      omega
  | .aobj _ fs, n => by
      have h := cloneFieldsA_counter_le fs (n + 1)
      simp only [cloneA]
      omega

theorem cloneListA_counter_le : ∀ (es : List AVal) (n : Nat), n ≤ (cloneListA es n).2
  | [], n => le_refl n
  | e :: es, n => by
      have h1 := cloneA_counter_le e n
      have h2 := cloneListA_counter_le es (cloneA e n).2
      simp only [cloneListA]
      omega

theorem cloneFieldsA_counter_le :
    ∀ (fs : List (String × AVal)) (n : Nat), n ≤ (cloneFieldsA fs n).2
  | [], n => le_refl n
  | (k, v) :: fs, n => by
      have h1 := cloneA_counter_le v n
      have h2 := cloneFieldsA_counter_le fs (cloneA v n).2
      simp only [cloneFieldsA]
      omega
end

mutual
theorem cloneA_addrs_ge :
    ∀ (v : AVal) (n a : Nat), a ∈ addrs (cloneA v n).1 → n ≤ a
  | .aundefined, n, a, h => by simp [cloneA, addrs] at h
  | .anull, n, a, h => by simp [cloneA, addrs] at h
  | .abool _, n, a, h => by simp [cloneA, addrs] at h
  | .anum _, n, a, h => by simp [cloneA, addrs] at h
  | .astr _, n, a, h => by simp [cloneA, addrs] at h
  | .aarr _ es, n, a, h => by
      simp only [cloneA, addrs, List.mem_cons] at h
      rcases h with h | h
      · omega
      · have := cloneListA_addrs_ge es (n + 1) a h
        omega
  | .aobj _ fs, n, a, h => by
      simp only [cloneA, addrs, List.mem_cons] at h
      rcases h with h | h
      · omega
      · have := cloneFieldsA_addrs_ge fs (n + 1) a h
        omega

theorem cloneListA_addrs_ge :
    ∀ (es : List AVal) (n a : Nat), a ∈ addrsList (cloneListA es n).1 → n ≤ a
  | [], n, a, h => by simp [cloneListA, addrsList] at h
  | e :: es, n, a, h => by
      simp only [cloneListA, addrsList, List.mem_append] at h
      rcases h with h | h
      · exact cloneA_addrs_ge e n a h
      · have h1 := cloneA_counter_le e n
        have h2 := cloneListA_addrs_ge es (cloneA e n).2 a h
        omega

theorem cloneFieldsA_addrs_ge :
    ∀ (fs : List (String × AVal)) (n a : Nat),
      a ∈ addrsFields (cloneFieldsA fs n).1 → n ≤ a
  | [], n, a, h => by simp [cloneFieldsA, addrsFields] at h
  | (k, v) :: fs, n, a, h => by
      simp only [cloneFieldsA, addrsFields, List.mem_append] at h
      rcases h with h | h
      · exact cloneA_addrs_ge v n a h
      · have h1 := cloneA_counter_le v n
        have h2 := cloneFieldsA_addrs_ge fs (cloneA v n).2 a h
        omega
end

mutual
theorem strip_cloneA : ∀ (v : AVal) (n : Nat), strip (cloneA v n).1 = strip v
  | .aundefined, _ => rfl
  | .anull, _ => rfl
  | .abool _, _ => rfl
  | .anum _, _ => rfl
  | .astr _, _ => rfl
  | .aarr _ es, n => by
      simp only [cloneA, strip]
      rw [stripList_cloneListA es (n + 1)]
  | .aobj _ fs, n => by
      simp only [cloneA, strip]
      rw [stripFields_cloneFieldsA fs (n + 1)]

theorem stripList_cloneListA :
    ∀ (es : List AVal) (n : Nat), stripList (cloneListA es n).1 = stripList es
  | [], _ => rfl
  | e :: es, n => by
      simp only [cloneListA, stripList]
      rw [strip_cloneA e n, stripList_cloneListA es (cloneA e n).2]

theorem stripFields_cloneFieldsA :
    ∀ (fs : List (String × AVal)) (n : Nat),
      stripFields (cloneFieldsA fs n).1 = stripFields fs
  | [], _ => rfl
  | (k, v) :: fs, n => by
      simp only [cloneFieldsA, stripFields]
      rw [strip_cloneA v n, stripFields_cloneFieldsA fs (cloneA v n).2]
end

mutual
theorem mutateAt_not_mem :
    ∀ (v : AVal) (t : Nat) (k : String) (w : AVal),
      t ∉ addrs v → mutateAt v t k w = v
  | .aundefined, _, _, _, _ => rfl
  | .anull, _, _, _, _ => rfl
  | .abool _, _, _, _, _ => rfl
  | .anum _, _, _, _, _ => rfl
  | .astr _, _, _, _, _ => rfl
  | .aarr a es, t, k, w, h => by
      simp only [addrs, List.mem_cons, not_or] at h
      have hne : ¬(a = t) := fun hh => h.1 hh.symm
      simp only [mutateAt, hne, if_false]
      rw [mutateListAt_not_mem es t k w h.2]
  | .aobj a fs, t, k, w, h => by
      simp only [addrs, List.mem_cons, not_or] at h
      have hne : ¬(a = t) := fun hh => h.1 hh.symm
      simp only [mutateAt, hne, if_false]
      rw [mutateFieldsAt_not_mem fs t k w h.2]

theorem mutateListAt_not_mem :
    ∀ (es : List AVal) (t : Nat) (k : String) (w : AVal),
      t ∉ addrsList es → mutateListAt es t k w = es
  | [], _, _, _, _ => rfl
  | e :: es, t, k, w, h => by
      simp only [addrsList, List.mem_append, not_or] at h
      simp only [mutateListAt]
      rw [mutateAt_not_mem e t k w h.1, mutateListAt_not_mem es t k w h.2]

theorem mutateFieldsAt_not_mem :
    ∀ (fs : List (String × AVal)) (t : Nat) (k : String) (w : AVal),
      t ∉ addrsFields fs → mutateFieldsAt fs t k w = fs
  | [], _, _, _, _ => rfl
  | (k', v) :: fs, t, k, w, h => by
      simp only [addrsFields, List.mem_append, not_or] at h
      simp only [mutateFieldsAt]
      rw [mutateAt_not_mem v t k w h.1, mutateFieldsAt_not_mem fs t k w h.2]
end

/-- The slice of the card store involved in the dirty flag: the current
document, the last saved snapshot, the optimistic dirty flag, the pending
debounce timer (remaining milliseconds until it fires) and a counter of
how many precise recomputations have run. -/
structure CardDirtyState where
  data : JVal
  originalData : JVal
  hasChanges : Bool
  timer : Option Nat
  recomputes : Nat

/-- checkChanges() of the card store: set the dirty flag immediately
(optimistic update), clear any pending timer and schedule a new 500 ms
one. -/
def checkChanges (s : CardDirtyState) : CardDirtyState :=
  { s with hasChanges := true, timer := some 500 }

/-- The passage of e milliseconds with no intervening calls: a pending
timer with remaining time r fires exactly when e reaches it, running the
scheduled precise recomputation
`hasChanges = !deepEqual(data, originalData)` once and clearing the
timer; otherwise the remaining time decreases.  With no pending timer
nothing happens. -/
def elapse (s : CardDirtyState) (e : Nat) : CardDirtyState :=
  match s.timer with
  | none => s
  | some r =>
      if e < r then { s with timer := some (r - e) }
      else
        { s with timer := none,
                 hasChanges := !deepEqual s.data s.originalData,
                 recomputes := s.recomputes + 1 }

/-- A rapid burst: an initial checkChanges call, further calls after the
given gaps, then a full 500 ms quiet window. -/
def burst (s : CardDirtyState) (gaps : List Nat) : CardDirtyState :=
  elapse (gaps.foldl (fun st g => checkChanges (elapse st g)) (checkChanges s)) 500

theorem burst_foldl_const (s : CardDirtyState) :
    ∀ (gaps : List Nat), (∀ g ∈ gaps, g < 500) →
      gaps.foldl (fun st g => checkChanges (elapse st g)) (checkChanges s) =
        checkChanges s := by
  intro gaps hg
  induction gaps with
  | nil => rfl
  | cons g gaps ih =>
      rw [List.foldl_cons]
      have hglt : g < 500 := hg g (List.mem_cons_self g gaps)
      have hstep : checkChanges (elapse (checkChanges s) g) = checkChanges s := by
        unfold checkChanges elapse
        simp [hglt]
      rw [hstep]
      exact ih (fun x hx => hg x (List.mem_cons_of_mem g hx))

mutual
/-- Structural boolean equality on values (for deciding propositions about
concrete documents; distinct from the deepEqual of the source). -/
def beqJ : JVal → JVal → Bool
  | .jundefined, .jundefined => true
  | .jnull, .jnull => true
  | .jbool a, .jbool b => a == b
  | .jnum a, .jnum b => a == b
  | .jstr a, .jstr b => a == b
  | .jarr es ps, .jarr es' ps' => beqJList es es' && beqJFields ps ps'
  | .jobj fs, .jobj fs' => beqJFields fs fs'
  | _, _ => false

def beqJList : List JVal → List JVal → Bool
  | [], [] => true
  | e :: es, e' :: es' => beqJ e e' && beqJList es es'
  | _, _ => false

def beqJFields : List (String × JVal) → List (String × JVal) → Bool
  | [], [] => true
  | (k, v) :: fs, (k', v') :: fs' => (k == k') && beqJ v v' && beqJFields fs fs'
  | _, _ => false
end

mutual
theorem beqJ_iff : ∀ (a b : JVal), beqJ a b = true ↔ a = b
  | .jundefined, b => by cases b <;> simp [beqJ]
  | .jnull, b => by cases b <;> simp [beqJ]
  | .jbool x, b => by cases b <;> simp [beqJ]
  | .jnum x, b => by cases b <;> simp [beqJ]
  | .jstr x, b => by cases b <;> simp [beqJ]
  | .jarr es ps, b => by
      cases b <;> simp [beqJ, beqJList_iff, beqJFields_iff]
  | .jobj fs, b => by
      cases b <;> simp [beqJ, beqJFields_iff]

theorem beqJList_iff : ∀ (es es' : List JVal), beqJList es es' = true ↔ es = es'
  | [], es' => by cases es' <;> simp [beqJList]
  | e :: es, es' => by
      cases es' <;> simp [beqJList, beqJ_iff, beqJList_iff]

theorem beqJFields_iff :
    ∀ (fs fs' : List (String × JVal)), beqJFields fs fs' = true ↔ fs = fs'
  | [], fs' => by cases fs' <;> simp [beqJFields]
  | (k, v) :: fs, fs' => by
      cases fs' with
      | nil => simp [beqJFields]
      | cons hd tl =>
          obtain ⟨k', v'⟩ := hd
          simp [beqJFields, beqJ_iff, beqJFields_iff, and_assoc]
end

instance : DecidableEq JVal := fun a b =>
  decidable_of_iff (beqJ a b = true) (beqJ_iff a b)

instance : DecidableEq (Except Unit JVal) := fun a b =>
  match a, b with
  | .ok x, .ok y =>
      if h : x = y then isTrue (by rw [h]) else isFalse (by simp [h])
  | .error x, .error y => isTrue (by cases x; cases y; rfl)
  | .ok _, .error _ => isFalse (by simp)
  | .error _, .ok _ => isFalse (by simp)

instance : DecidableEq (Except Unit (Option JVal)) := fun a b =>
  match a, b with
  | .ok x, .ok y =>
      if h : x = y then isTrue (by rw [h]) else isFalse (by simp [h])
  | .error x, .error y => isTrue (by cases x; cases y; rfl)
  | .ok _, .error _ => isFalse (by simp)
  | .error _, .ok _ => isFalse (by simp)

theorem getKeys_isOk : ∀ (keys : List String) (cur : JVal),
    ∃ r, getKeys cur keys = .ok r
  | [], cur => ⟨cur, rfl⟩
  | k :: rest, cur => by
      by_cases h : cur.isNullish = true
      · exact ⟨.jundefined, by simp [getKeys, h]⟩
      · obtain ⟨r, hr⟩ := getKeys_isOk rest (jsRead cur k)
        refine ⟨r, ?_⟩
        simp only [getKeys, h, Bool.false_eq_true, if_false, jsReadE]
        simp [h, hr]

/-!  ## The claims  -/

/-- C1: history store state invariant.  For every sequence of
push/undo/redo/clear/init operations run from the empty initial state:
the pointer stays in [-1, stack length), it is -1 exactly when the stack
is empty, canUndo holds iff the pointer is positive, canRedo holds iff
the pointer is strictly below the top, and the stack length never exceeds
maxSize (so in particular after any push). -/
theorem history_state_invariant (ops : List HOp) :
    -1 ≤ (History.run ops).index ∧
    (History.run ops).index < ((History.run ops).stack.length : Int) ∧
    ((History.run ops).index = -1 ↔ (History.run ops).stack = []) ∧
    (History.canUndo (History.run ops) = true ↔ 0 < (History.run ops).index) ∧
    (History.canRedo (History.run ops) = true ↔
      (History.run ops).index < ((History.run ops).stack.length : Int) - 1) ∧
    (History.run ops).stack.length ≤ (History.run ops).maxSize := by
  obtain ⟨h1, h2, h3, h4⟩ := History.run_inv ops
  refine ⟨h1, h2, ?_, ?_, ?_, h4⟩
  · rw [h3, List.length_eq_zero]
  · simp [History.canUndo]
  · simp [History.canRedo]

/-- C2, counterexample to the claim as stated: the specification Document
includes null (and primitives), but setByPath on a null document raises a
TypeError instead of establishing the path, and getByPath on the unchanged
document returns undefined, not the written value. -/
theorem setByPath_roundtrip_fails_on_null_document :
    setByPath JVal.jnull "a" (JVal.jnum 1) true = Except.error () ∧
    getByPath JVal.jnull "a" = Except.ok JVal.jundefined ∧
    JVal.jundefined ≠ JVal.jnum 1 := by decide

/-- C2 (amended): for every document whose root is an object or an array,
every path string, and every value, setByPath with autoCreate enabled
completes without throwing and getByPath then returns exactly the written
value. -/
theorem setByPath_getByPath_roundtrip (d : JVal) (p : String) (v : JVal)
    (hd : d.isContainer = true) :
    ∃ d', setByPath d p v true = .ok d' ∧ getByPath d' p = .ok v := by
  obtain ⟨cur', hset, hc, hget⟩ :=
    setKeys_getKeys_roundtrip (parsePath p) d v (parsePath_ne_nil p) hd
  refine ⟨cur', ?_, hget⟩
  unfold setByPath
  rw [hset]

theorem setByPath_getByPath_roundtrip_witness :
    (JVal.jobj [("name", JVal.jstr "A"),
                ("tags", JVal.jarr [JVal.jstr "x"] [])]).isContainer = true ∧
    ∃ d', setByPath (JVal.jobj [("name", JVal.jstr "A"),
                ("tags", JVal.jarr [JVal.jstr "x"] [])])
            "tags[1]" (JVal.jstr "y") true = .ok d' ∧
          getByPath d' "tags[1]" = .ok (JVal.jstr "y") :=
  ⟨by decide,
   setByPath_getByPath_roundtrip _ "tags[1]" (JVal.jstr "y") (by decide)⟩


/-- C3: init s0, push s1, undo, push s2 leaves canRedo false and the stack
holding exactly entries structurally equal to s0 and s2 in that order (the
s1 branch is discarded). -/
theorem redo_branch_truncation (s0 s1 s2 : JVal)
    (h0 : noProps s0 = true) (h2 : noProps s2 = true) :
    History.canRedo (History.run [.init s0, .push s1, .undo, .push s2]) = false ∧
    (History.run [.init s0, .push s1, .undo, .push s2]).stack = [s0, s2] := by
  have e1 : History.run [.init s0, .push s1, .undo, .push s2] =
      { stack := [deepClone s0, deepClone s2], index := 1, maxSize := 10 } := by
    unfold History.run
    simp only [List.foldl_cons, List.foldl_nil]
    unfold History.applyOp History.init History.clear History.initial
    unfold History.push History.undo History.canUndo
    norm_num [List.take_succ_cons, List.take_zero]
  rw [e1]
  constructor
  · rfl
  · simp [deepClone_eq_self s0 h0, deepClone_eq_self s2 h2]

theorem redo_branch_truncation_witness :
    noProps JVal.jnull = true ∧ noProps (JVal.jnum 2) = true ∧
    (History.canRedo (History.run
        [.init JVal.jnull, .push (JVal.jnum 1), .undo, .push (JVal.jnum 2)])
      = false ∧
     (History.run
        [.init JVal.jnull, .push (JVal.jnum 1), .undo, .push (JVal.jnum 2)]).stack
      = [JVal.jnull, JVal.jnum 2]) :=
  ⟨by decide, by decide,
   redo_branch_truncation JVal.jnull (JVal.jnum 1) (JVal.jnum 2)
     (by decide) (by decide)⟩

/-- C4: bounded eviction.  For every stack bound m, pushing m + 5 plain
documents consecutively into an empty history with that bound leaves
exactly the most recent m pushed documents on the stack, in push order,
with the pointer at the most recent entry; the store is declared with
maxSize 10. -/
theorem bounded_eviction (m : Nat) (vs : List JVal)
    (hlen : vs.length = m + 5) (hwf : ∀ v ∈ vs, noProps v = true) :
    (vs.foldl History.push { stack := [], index := -1, maxSize := m }).stack
      = vs.drop 5 ∧
    (vs.foldl History.push { stack := [], index := -1, maxSize := m }).stack.length
      = m ∧
    (vs.foldl History.push { stack := [], index := -1, maxSize := m }).index =
      ((vs.foldl History.push
          { stack := [], index := -1, maxSize := m }).stack.length : Int) - 1 ∧
    History.initial.maxSize = 10 := by
  have hmap : ∀ (l : List JVal), (∀ v ∈ l, noProps v = true) →
      l.map deepClone = l := by
    intro l hl
    induction l with
    | nil => rfl
    | cons x xs ih =>
        simp only [List.map_cons]
        rw [deepClone_eq_self x (hl x (List.mem_cons_self x xs)),
            ih (fun v hv => hl v (List.mem_cons_of_mem x hv))]
  have h := foldl_push_shape m vs [] (by simp)
  simp only [List.length_nil, List.nil_append, Nat.cast_zero, Int.zero_sub,
    Nat.zero_add, zero_sub] at h
  rw [h]
  simp only [hmap vs hwf, hlen]
  have hdrop : m + 5 - m = 5 := by omega
  rw [hdrop]
  refine ⟨rfl, ?_, trivial, rfl⟩
  rw [List.length_drop, hlen]
  omega

theorem bounded_eviction_witness :
    ([JVal.jnum 0, JVal.jnum 1, JVal.jnum 2, JVal.jnum 3, JVal.jnum 4,
      JVal.jnum 5, JVal.jnum 6] : List JVal).length = 2 + 5 ∧
    (∀ v ∈ ([JVal.jnum 0, JVal.jnum 1, JVal.jnum 2, JVal.jnum 3, JVal.jnum 4,
      JVal.jnum 5, JVal.jnum 6] : List JVal), noProps v = true) ∧
    (([JVal.jnum 0, JVal.jnum 1, JVal.jnum 2, JVal.jnum 3, JVal.jnum 4,
        JVal.jnum 5, JVal.jnum 6] : List JVal).foldl History.push
      { stack := [], index := -1, maxSize := 2 }).stack =
      ([JVal.jnum 0, JVal.jnum 1, JVal.jnum 2, JVal.jnum 3, JVal.jnum 4,
        JVal.jnum 5, JVal.jnum 6] : List JVal).drop 5 :=
  ⟨by decide, by decide,
   (bounded_eviction 2 _ (by decide) (by decide)).1⟩

/-- C5, counterexample to the claim as stated: the path x does not exist in
the empty object document, yet setByPath with autoCreate disabled still
assigns the final segment and mutates the document (the early return only
guards intermediate segments). -/
theorem setByPath_noAutoCreate_writes_final_segment :
    getByPath (JVal.jobj []) "x" = .ok JVal.jundefined ∧
    setByPath (JVal.jobj []) "x" (JVal.jnum 1) false =
      .ok (JVal.jobj [("x", JVal.jnum 1)]) ∧
    JVal.jobj [("x", JVal.jnum 1)] ≠ JVal.jobj [] := by decide

/-- C5 (amended): with autoCreate disabled, whenever some intermediate
segment of the path fails to resolve to an object or array (missing,
null, or a primitive), setByPath aborts and leaves the document unchanged,
only emitting a console diagnostic; when every intermediate segment does
resolve, the final segment is assigned unconditionally even with
autoCreate disabled. -/
theorem setByPath_noAutoCreate_aborts_unchanged (d : JVal) (p : String)
    (v : JVal) (hd : d.isContainer = true)
    (hbroken : chainOk d (parsePath p) = false) :
    setByPath d p v false = .ok d := by
  unfold setByPath
  rw [setKeys_abort_of_chain_broken (parsePath p) d v hd hbroken]

theorem setByPath_noAutoCreate_aborts_unchanged_witness :
    (JVal.jobj [("a", JVal.jnum 5)]).isContainer = true ∧
    chainOk (JVal.jobj [("a", JVal.jnum 5)]) (parsePath "a.b.c") = false ∧
    setByPath (JVal.jobj [("a", JVal.jnum 5)]) "a.b.c" (JVal.jnum 1) false =
      .ok (JVal.jobj [("a", JVal.jnum 5)]) :=
  ⟨by decide, by decide,
   setByPath_noAutoCreate_aborts_unchanged (JVal.jobj [("a", JVal.jnum 5)])
     "a.b.c" (JVal.jnum 1) (by decide) (by decide)⟩

/-- C6: whenever canUndo is false, undo returns the null sentinel and
leaves stack and pointer unchanged (a no-op; the operation is total and
never raises); whenever canUndo holds, undo decrements the pointer and
returns a deep clone of the entry at the new pointer.  Symmetrically for
redo with canRedo. -/
theorem undo_redo_precondition_contract (s : HistoryState) :
    (History.canUndo s = false → History.undo s = (none, s)) ∧
    (History.canUndo s = true →
      (History.undo s).2.stack = s.stack ∧
      (History.undo s).2.index = s.index - 1 ∧
      (History.undo s).1 =
        some (deepClone (History.stackGet s.stack (s.index - 1)))) ∧
    (History.canRedo s = false → History.redo s = (none, s)) ∧
    (History.canRedo s = true →
      (History.redo s).2.stack = s.stack ∧
      (History.redo s).2.index = s.index + 1 ∧
      (History.redo s).1 =
        some (deepClone (History.stackGet s.stack (s.index + 1)))) := by
  refine ⟨?_, ?_, ?_, ?_⟩ <;> intro h <;>
    simp [History.undo, History.redo, h]

theorem undo_redo_precondition_contract_witness :
    History.undo History.initial = (none, History.initial) ∧
    (History.undo (⟨[JVal.jnull, JVal.jnum 1], 1, 10⟩ : HistoryState)).1 =
      some (deepClone (History.stackGet [JVal.jnull, JVal.jnum 1]
        ((1 : Int) - 1))) :=
  ⟨(undo_redo_precondition_contract History.initial).1 (by decide),
   ((undo_redo_precondition_contract
      (⟨[JVal.jnull, JVal.jnum 1], 1, 10⟩ : HistoryState)).2.1
        (by decide)).2.2⟩

/-- C7: for every JSON document, the deep clone is structurally equal to
the original (deepEqual holds of the two), and the clone shares no
container address with the original, so a heap mutation (property write)
at any address of the clone leaves the original unchanged, and conversely
mutating the original never changes the clone. -/
theorem clone_fidelity_and_independence (d : AVal) (n : Nat)
    (hn : ∀ a ∈ addrs d, a < n) :
    deepEqual (strip d) (strip (cloneA d n).1) = true ∧
    (∀ t ∈ addrs (cloneA d n).1, ∀ (k : String) (w : AVal),
        mutateAt d t k w = d) ∧
    (∀ t ∈ addrs d, ∀ (k : String) (w : AVal),
        mutateAt (cloneA d n).1 t k w = (cloneA d n).1) := by
  refine ⟨?_, ?_, ?_⟩
  · rw [strip_cloneA]
    exact deepEqual_refl (strip d)
  · intro t ht k w
    apply mutateAt_not_mem
    intro hmem
    have hge := cloneA_addrs_ge d n t ht
    have hlt := hn t hmem
    omega
  · intro t ht k w
    apply mutateAt_not_mem
    intro hmem
    have hge := cloneA_addrs_ge d n t hmem
    have hlt := hn t ht
    omega

theorem clone_fidelity_and_independence_witness :
    (∀ a ∈ addrs (AVal.aobj 0 [("x", AVal.anum 1),
        ("t", AVal.aarr 1 [AVal.astr "s"])]), a < 2) ∧
    (deepEqual (strip (AVal.aobj 0 [("x", AVal.anum 1),
          ("t", AVal.aarr 1 [AVal.astr "s"])]))
        (strip (cloneA (AVal.aobj 0 [("x", AVal.anum 1),
          ("t", AVal.aarr 1 [AVal.astr "s"])]) 2).1) = true ∧
     (∀ t ∈ addrs (cloneA (AVal.aobj 0 [("x", AVal.anum 1),
          ("t", AVal.aarr 1 [AVal.astr "s"])]) 2).1,
        ∀ (k : String) (w : AVal),
          mutateAt (AVal.aobj 0 [("x", AVal.anum 1),
            ("t", AVal.aarr 1 [AVal.astr "s"])]) t k w =
          AVal.aobj 0 [("x", AVal.anum 1), ("t", AVal.aarr 1 [AVal.astr "s"])]) ∧
     (∀ t ∈ addrs (AVal.aobj 0 [("x", AVal.anum 1),
          ("t", AVal.aarr 1 [AVal.astr "s"])]),
        ∀ (k : String) (w : AVal),
          mutateAt (cloneA (AVal.aobj 0 [("x", AVal.anum 1),
            ("t", AVal.aarr 1 [AVal.astr "s"])]) 2).1 t k w =
          (cloneA (AVal.aobj 0 [("x", AVal.anum 1),
            ("t", AVal.aarr 1 [AVal.astr "s"])]) 2).1)) :=
  ⟨by decide,
   clone_fidelity_and_independence
     (AVal.aobj 0 [("x", AVal.anum 1), ("t", AVal.aarr 1 [AVal.astr "s"])]) 2
     (by decide)⟩

/-- C8: getByPath is total, never throwing: for every document and every
path string it completes with an ok result; moreover the traversal loop
returns undefined as soon as the current value is null or undefined with
at least one segment still to process (hence undefined for any missing
path rather than an error). -/
theorem getByPath_total_never_throws :
    (∀ (d : JVal) (p : String), ∃ r, getByPath d p = .ok r) ∧
    (∀ (cur : JVal) (keys : List String), cur.isNullish = true → keys ≠ [] →
      getKeys cur keys = .ok JVal.jundefined) := by
  constructor
  · intro d p
    exact getKeys_isOk (parsePath p) d
  · intro cur keys hnull hne
    cases keys with
    | nil => exact absurd rfl hne
    | cons k rest => simp [getKeys, hnull]

theorem getByPath_total_never_throws_witness :
    (∃ r, getByPath (JVal.jobj []) "a.b" = .ok r) ∧
    JVal.jnull.isNullish = true ∧ (["a"] : List String) ≠ [] ∧
    getKeys JVal.jnull ["a"] = .ok JVal.jundefined :=
  ⟨getByPath_total_never_throws.1 (JVal.jobj []) "a.b",
   by decide, by decide,
   getByPath_total_never_throws.2 JVal.jnull ["a"] (by decide) (by decide)⟩

/-- C9: two-phase dirty flag.  Every checkChanges call immediately sets
the dirty flag and replaces any pending timer with a fresh 500 ms one
(cancel plus reschedule); a burst of calls whose gaps are each below the
500 ms quiet window, followed by a full quiet window, runs exactly one
precise recomputation, which sets the flag to the value
!deepEqual(current document, last saved document) and leaves the
documents untouched. -/
theorem dirty_flag_two_phase_debounce (s : CardDirtyState) (gaps : List Nat)
    (hg : ∀ g ∈ gaps, g < 500) :
    (checkChanges s).hasChanges = true ∧
    (checkChanges s).timer = some 500 ∧
    burst s gaps =
      { data := s.data, originalData := s.originalData,
        hasChanges := !deepEqual s.data s.originalData,
        timer := none, recomputes := s.recomputes + 1 } := by
  refine ⟨rfl, rfl, ?_⟩
  unfold burst
  rw [burst_foldl_const s gaps hg]
  unfold checkChanges elapse
  simp

theorem dirty_flag_two_phase_debounce_witness :
    (∀ g ∈ ([100, 499] : List Nat), g < 500) ∧
    ((checkChanges (⟨JVal.jnull, JVal.jnum 3, false, none, 0⟩ :
        CardDirtyState)).hasChanges = true ∧
     (checkChanges (⟨JVal.jnull, JVal.jnum 3, false, none, 0⟩ :
        CardDirtyState)).timer = some 500 ∧
     burst (⟨JVal.jnull, JVal.jnum 3, false, none, 0⟩ : CardDirtyState)
         [100, 499] =
       { data := JVal.jnull, originalData := JVal.jnum 3,
         hasChanges := !deepEqual JVal.jnull (JVal.jnum 3),
         timer := none, recomputes := 0 + 1 }) :=
  ⟨by decide,
   dirty_flag_two_phase_debounce
     (⟨JVal.jnull, JVal.jnum 3, false, none, 0⟩ : CardDirtyState)
     [100, 499] (by decide)⟩

/-- C10: the history store registered by the global store module and the
history store defined in the undo/redo component module agree on every
operation sequence run from the empty initial state: identical stacks,
identical pointers, identical canUndo and canRedo answers, and equal
undo/redo return values. -/
theorem duplicate_history_stores_agree (ops : List HOp) :
    (History.runOut ops).1.stack = (HistoryUR.runOut ops).1.stack ∧
    (History.runOut ops).1.index = (HistoryUR.runOut ops).1.index ∧
    History.canUndo (History.runOut ops).1 =
      HistoryUR.canUndo (HistoryUR.runOut ops).1 ∧
    History.canRedo (History.runOut ops).1 =
      HistoryUR.canRedo (HistoryUR.runOut ops).1 ∧
    (History.runOut ops).2 = (HistoryUR.runOut ops).2 := by
  rw [historyUR_runOut_eq_history_runOut]
  exact ⟨rfl, rfl, rfl, rfl, rfl⟩

theorem history_state_invariant_witness :
    -1 ≤ (History.run [.push JVal.jnull, .undo]).index ∧
    (History.run [.push JVal.jnull, .undo]).index <
      ((History.run [.push JVal.jnull, .undo]).stack.length : Int) ∧
    ((History.run [.push JVal.jnull, .undo]).index = -1 ↔
      (History.run [.push JVal.jnull, .undo]).stack = []) ∧
    (History.canUndo (History.run [.push JVal.jnull, .undo]) = true ↔
      0 < (History.run [.push JVal.jnull, .undo]).index) ∧
    (History.canRedo (History.run [.push JVal.jnull, .undo]) = true ↔
      (History.run [.push JVal.jnull, .undo]).index <
        ((History.run [.push JVal.jnull, .undo]).stack.length : Int) - 1) ∧
    (History.run [.push JVal.jnull, .undo]).stack.length ≤
      (History.run [.push JVal.jnull, .undo]).maxSize :=
  history_state_invariant [.push JVal.jnull, .undo]

theorem duplicate_history_stores_agree_witness :
    (History.runOut [.init JVal.jnull, .push (JVal.jnum 1), .undo, .redo]).1.stack =
      (HistoryUR.runOut [.init JVal.jnull, .push (JVal.jnum 1), .undo, .redo]).1.stack ∧
    (History.runOut [.init JVal.jnull, .push (JVal.jnum 1), .undo, .redo]).1.index =
      (HistoryUR.runOut [.init JVal.jnull, .push (JVal.jnum 1), .undo, .redo]).1.index ∧
    History.canUndo
        (History.runOut [.init JVal.jnull, .push (JVal.jnum 1), .undo, .redo]).1 =
      HistoryUR.canUndo
        (HistoryUR.runOut [.init JVal.jnull, .push (JVal.jnum 1), .undo, .redo]).1 ∧
    History.canRedo
        (History.runOut [.init JVal.jnull, .push (JVal.jnum 1), .undo, .redo]).1 =
      HistoryUR.canRedo
        (HistoryUR.runOut [.init JVal.jnull, .push (JVal.jnum 1), .undo, .redo]).1 ∧
    (History.runOut [.init JVal.jnull, .push (JVal.jnum 1), .undo, .redo]).2 =
      (HistoryUR.runOut [.init JVal.jnull, .push (JVal.jnum 1), .undo, .redo]).2 :=
  duplicate_history_stores_agree [.init JVal.jnull, .push (JVal.jnum 1), .undo, .redo]
